import Mathlib

/-!
Shallow embedding of the core business logic of the ReplitTimeSheetPro
time-tracking server (src/server/routes.ts, src/server/storage.ts, and the
client-side time-calculation helpers), together with theorems checking the
natural-language specification against it.

Modelling conventions:
* JavaScript `Date` timestamps are integers (milliseconds since the epoch);
  hours and monetary amounts are rationals (the arithmetic performed by the
  code is exact at this granularity).
* A nullable field (`endTime`, `startTime` on a joined row, `hourlyRate`)
  is an `Option`; JavaScript truthiness on a `Date`/string column reduces to
  null-ness for the values these columns can hold.
* `entry.user?.hourlyRate` (a `decimal(8,2)` column joined onto the entry)
  is modelled as `Option ℚ` on the entry itself: `none` when the join or the
  column is absent/empty, `some r` for a stored decimal.
-/

namespace TimeSheet

open scoped List

/-- A time entry as the server sees it after the user/project join
(`timeEntries` table of shared/schema plus `entry.user.hourlyRate`). -/
structure TimeEntry where
  id : Nat
  userId : Nat
  date : Int
  startTime : Option Int
  endTime : Option Int
  breakMinutes : Nat
  isRunning : Bool
  hourlyRate : Option ℚ
  deriving DecidableEq, Repr

/-- `calculateDuration` from src/server/routes.ts (lines 690–698):
`max(0, (end − start)/3600000 h − breakMinutes/60)`. -/
def calculateDuration (startTime endTime : Int) (breakMinutes : ℚ) : ℚ :=
  max 0 (((endTime : ℚ) - (startTime : ℚ)) / (1000 * 60 * 60) - breakMinutes / 60)

/-- The overlap test applied to one existing entry inside the `some` callback
of the create handler (src/server/routes.ts lines 143–152): both the existing
entry and the candidate must have both timestamps, and the two ranges meet
iff `newStart < entryEnd && newEnd > entryStart`. -/
def entryConflicts (cand : TimeEntry) (entry : TimeEntry) : Bool :=
  match entry.startTime, entry.endTime, cand.startTime, cand.endTime with
  | some entryStart, some entryEnd, some newStart, some newEnd =>
      decide (newStart < entryEnd) && decide (newEnd > entryStart)
  | _, _, _, _ => false

/-- `hasOverlap` of the POST /api/time-entries handler:
`existingEntries.some (…)`. -/
def hasOverlap (cand : TimeEntry) (existingEntries : List TimeEntry) : Bool :=
  existingEntries.any (entryConflicts cand)

/-- The create path of POST /api/time-entries after schema validation:
a detected overlap answers 400 with the German validation message and writes
nothing; otherwise `storage.createTimeEntry` inserts the candidate. -/
def postTimeEntry (cand : TimeEntry) (existingEntries : List TimeEntry) :
    Option String × List TimeEntry :=
  if hasOverlap cand existingEntries then
    (some "Überlappende Zeiten erkannt", existingEntries)
  else
    (none, existingEntries ++ [cand])

/-- C1: For every start time `s`, end time `e` and break minutes `b`, the
Duration Calculator returns `max 0 ((e − s) in hours − b/60)`; in particular
`duration s (s+2h) 30 = 1.5` for every `s`, `duration s (s−1h) 0 = 0`, and
the result is never negative. -/
theorem calculateDuration_spec (s e : Int) (b : ℚ) :
    calculateDuration s e b
        = max 0 (((e : ℚ) - (s : ℚ)) / 3600000 - b / 60)
      ∧ calculateDuration s (s + 7200000) 30 = 3 / 2
      ∧ calculateDuration s (s - 3600000) 0 = 0
      ∧ 0 ≤ calculateDuration s e b := by
  refine ⟨by norm_num [calculateDuration], ?_, ?_, le_max_left 0 _⟩
  · simp only [calculateDuration]
    push_cast
    norm_num
  · simp only [calculateDuration]
    push_cast
    norm_num

theorem entryConflicts_eq_true_iff (cand entry : TimeEntry) :
    entryConflicts cand entry = true ↔
      ∃ es ee ns ne, entry.startTime = some es ∧ entry.endTime = some ee ∧
        cand.startTime = some ns ∧ cand.endTime = some ne ∧ ns < ee ∧ es < ne := by
  unfold entryConflicts
  rcases hes : entry.startTime with _ | es <;> rcases hee : entry.endTime with _ | ee <;>
    rcases hns : cand.startTime with _ | ns <;> rcases hne : cand.endTime with _ | ne <;>
    simp [gt_iff_lt, and_assoc]

/-- C2: the create-time overlap check fires iff some existing entry with both
timestamps overlaps the candidate under half-open semantics (`ns < ee` and
`es < ne`); ranges that merely touch at an endpoint do not conflict, and a
detected conflict answers a validation error and leaves the stored entries
unchanged. -/
theorem hasOverlap_spec (cand : TimeEntry) (existingEntries : List TimeEntry) :
    (hasOverlap cand existingEntries = true ↔
      ∃ entry ∈ existingEntries, ∃ es ee ns ne,
        entry.startTime = some es ∧ entry.endTime = some ee ∧
        cand.startTime = some ns ∧ cand.endTime = some ne ∧ ns < ee ∧ es < ne)
    ∧ (∀ entry : TimeEntry, ∀ ns ne es ee,
        cand.startTime = some ns → cand.endTime = some ne →
        entry.startTime = some es → entry.endTime = some ee →
        ne = es ∨ ee = ns → entryConflicts cand entry = false)
    ∧ (hasOverlap cand existingEntries = true →
        postTimeEntry cand existingEntries
          = (some "Überlappende Zeiten erkannt", existingEntries)) := by
  refine ⟨?_, ?_, ?_⟩
  · simp only [hasOverlap, List.any_eq_true, entryConflicts_eq_true_iff]
  · intro entry ns ne es ee hns hne hes hee htouch
    unfold entryConflicts
    rw [hes, hee, hns, hne]
    rcases htouch with h | h <;> subst h <;> simp
  · intro h
    simp [postTimeEntry, h]

/-- A candidate manual entry 10:00–11:00 (milliseconds of day). -/
def candEntry : TimeEntry :=
  ⟨1, 7, 0, some 36000000, some 39600000, 0, false, none⟩

/-- An existing entry 10:30–11:30, overlapping the candidate. -/
def overlappingEntry : TimeEntry :=
  ⟨2, 7, 0, some 37800000, some 41400000, 0, false, none⟩

/-- An existing entry 11:00–12:00, touching the candidate at 11:00. -/
def touchingEntry : TimeEntry :=
  ⟨3, 7, 0, some 39600000, some 43200000, 0, false, none⟩

/-- Witness for C2 at the spec's scenario: the touching entry does not
conflict, and the overlapping entry makes creation fail with the stored
entries unchanged. -/
theorem hasOverlap_spec_witness :
    entryConflicts candEntry touchingEntry = false
      ∧ postTimeEntry candEntry [overlappingEntry]
          = (some "Überlappende Zeiten erkannt", [overlappingEntry]) :=
  ⟨(hasOverlap_spec candEntry [overlappingEntry]).2.1 touchingEntry
      36000000 39600000 39600000 43200000 rfl rfl rfl rfl (Or.inl rfl),
   (hasOverlap_spec candEntry [overlappingEntry]).2.2 (by decide)⟩

/-- An entry participates in hour/cost totals iff both timestamps are set
(`entry.startTime && entry.endTime` in `calculateHoursAndCosts`). -/
def isClosed (e : TimeEntry) : Bool :=
  e.startTime.isSome && e.endTime.isSome

/-- The net hours one entry contributes to `calculateHoursAndCosts`
(the inline `Math.max(0, hours - breakHours)` is the same formula as
`calculateDuration`). -/
def entryHours (e : TimeEntry) : ℚ :=
  match e.startTime, e.endTime with
  | some s, some en => calculateDuration s en e.breakMinutes
  | _, _ => 0

/-- The cost one entry contributes when costs are included:
`actualHours * parseFloat(entry.user.hourlyRate)`, skipped when the joined
rate is absent. -/
def entryCost (e : TimeEntry) : ℚ :=
  match e.startTime, e.endTime, e.hourlyRate with
  | some s, some en, some rate => calculateDuration s en e.breakMinutes * rate
  | _, _, _ => 0

/-- One step of the `entries.reduce` in `calculateHoursAndCosts`
(src/server/routes.ts lines 501–519). -/
def hcStep (includeCosts : Bool) (sum : ℚ × ℚ) (entry : TimeEntry) : ℚ × ℚ :=
  match entry.startTime, entry.endTime with
  | some s, some en =>
      let actualHours := calculateDuration s en entry.breakMinutes
      (sum.1 + actualHours,
        match includeCosts, entry.hourlyRate with
        | true, some rate => sum.2 + actualHours * rate
        | _, _ => sum.2)
  | _, _ => sum

/-- `calculateHoursAndCosts` (routes.ts 501–519): reduce over the entries
starting from `{ totalHours: 0, totalCosts: 0 }`. -/
def calculateHoursAndCosts (entries : List TimeEntry) (includeCosts : Bool) : ℚ × ℚ :=
  entries.foldl (hcStep includeCosts) (0, 0)

theorem hcStep_eq (includeCosts : Bool) (sum : ℚ × ℚ) (entry : TimeEntry) :
    hcStep includeCosts sum entry
      = (sum.1 + entryHours entry,
         sum.2 + (if includeCosts then entryCost entry else 0)) := by
  unfold hcStep entryHours entryCost
  rcases entry.startTime with _ | s <;> rcases entry.endTime with _ | en <;>
    rcases includeCosts with _ | _ <;> rcases entry.hourlyRate with _ | rate <;> simp

theorem foldl_hcStep (includeCosts : Bool) (entries : List TimeEntry) :
    ∀ init : ℚ × ℚ,
      entries.foldl (hcStep includeCosts) init
        = (init.1 + (entries.map entryHours).sum,
           init.2 + (if includeCosts then (entries.map entryCost).sum else 0)) := by
  induction entries with
  | nil => intro init; simp
  | cons e es ih =>
      intro init
      rw [List.foldl_cons, hcStep_eq, ih]
      rcases includeCosts with _ | _ <;> simp [add_assoc]

theorem calculateHoursAndCosts_eq (entries : List TimeEntry) (includeCosts : Bool) :
    calculateHoursAndCosts entries includeCosts
      = ((entries.map entryHours).sum,
         if includeCosts then (entries.map entryCost).sum else 0) := by
  rw [calculateHoursAndCosts, foldl_hcStep]
  simp

/-- Insert an entry into the grouped accumulator under key `k`, preserving
first-seen key order (the JS object acts as an insertion-ordered map for
these string keys). -/
def insertGrouped {κ : Type} [DecidableEq κ] (k : κ) (e : TimeEntry) :
    List (κ × List TimeEntry) → List (κ × List TimeEntry)
  | [] => [(k, [e])]
  | (k', es) :: rest =>
      if k = k' then (k', es ++ [e]) :: rest
      else (k', es) :: insertGrouped k e rest

/-- The `entries.reduce((acc, entry) => …, {})` grouping pass shared by the
groupByDay/Week/Month/Project/User helpers. -/
def groupPairs {κ : Type} [DecidableEq κ] (key : TimeEntry → κ)
    (entries : List TimeEntry) : List (κ × List TimeEntry) :=
  entries.foldl (fun acc e => insertGrouped (key e) e acc) []

/-- One aggregated report group: `{ <key>, entries, totalHours, totalCosts }`. -/
structure ReportGroup (κ : Type) where
  key : κ
  entries : List TimeEntry
  totalHours : ℚ
  totalCosts : ℚ
  deriving DecidableEq, Repr

/-- The common shape of the groupByX helpers (routes.ts 521–613): group by
the key, then attach `calculateHoursAndCosts` of each group's entries. -/
def aggregateBy {κ : Type} [DecidableEq κ] (key : TimeEntry → κ)
    (entries : List TimeEntry) (includeCosts : Bool) : List (ReportGroup κ) :=
  (groupPairs key entries).map (fun p =>
    { key := p.1, entries := p.2,
      totalHours := (calculateHoursAndCosts p.2 includeCosts).1,
      totalCosts := (calculateHoursAndCosts p.2 includeCosts).2 })

/-- The UTC day key of `groupByDay`: `toISOString().split('T')[0]` names the
day `⌊t / 86400000⌋` of the timestamp. -/
def dayKey (t : Int) : Int := Int.fdiv t 86400000

/-- `groupByDay` (routes.ts 521–537). -/
def groupByDay (entries : List TimeEntry) (includeCosts : Bool) :
    List (ReportGroup Int) :=
  aggregateBy (fun e => dayKey e.date) entries includeCosts

/-- All entries stored in the grouped accumulator, in group order. -/
def flatEntries {κ : Type} (g : List (κ × List TimeEntry)) : List TimeEntry :=
  (g.map Prod.snd).flatten

/-- Every entry sits in the group of its own key. -/
def KeyConsistent {κ : Type} (key : TimeEntry → κ)
    (g : List (κ × List TimeEntry)) : Prop :=
  ∀ p ∈ g, ∀ e ∈ p.2, key e = p.1

theorem keys_insertGrouped {κ : Type} [DecidableEq κ] (k : κ) (e : TimeEntry)
    (g : List (κ × List TimeEntry)) :
    (insertGrouped k e g).map Prod.fst
      = if k ∈ g.map Prod.fst then g.map Prod.fst else g.map Prod.fst ++ [k] := by
  induction g with
  | nil => simp [insertGrouped]
  | cons p rest ih =>
      rcases p with ⟨k', es⟩
      by_cases h : k = k'
      · subst h; simp [insertGrouped]
      · by_cases hm : k ∈ rest.map Prod.fst <;>
          simp [insertGrouped, h, ih, hm]

theorem nodup_keys_insertGrouped {κ : Type} [DecidableEq κ] (k : κ) (e : TimeEntry)
    (g : List (κ × List TimeEntry)) (h : (g.map Prod.fst).Nodup) :
    ((insertGrouped k e g).map Prod.fst).Nodup := by
  rw [keys_insertGrouped]
  by_cases hm : k ∈ g.map Prod.fst
  · simpa [hm] using h
  · simp only [hm, if_false]
    exact List.Nodup.append h (List.nodup_singleton k) (by simp [List.disjoint_left, hm])

theorem flat_insertGrouped {κ : Type} [DecidableEq κ] (k : κ) (e : TimeEntry)
    (g : List (κ × List TimeEntry)) :
    flatEntries (insertGrouped k e g) ~ flatEntries g ++ [e] := by
  induction g with
  | nil => simp [insertGrouped, flatEntries]
  | cons p rest ih =>
      rcases p with ⟨k', es⟩
      by_cases h : k = k'
      · subst h
        simp only [insertGrouped, if_pos rfl, flatEntries, List.map_cons, List.flatten_cons]
        calc (es ++ [e]) ++ (rest.map Prod.snd).flatten
            = es ++ ([e] ++ (rest.map Prod.snd).flatten) := by rw [List.append_assoc]
          _ ~ es ++ ((rest.map Prod.snd).flatten ++ [e]) :=
              (List.perm_append_comm).append_left es
          _ = (es ++ (rest.map Prod.snd).flatten) ++ [e] := by rw [List.append_assoc]
      · simp only [insertGrouped, if_neg h, flatEntries, List.map_cons, List.flatten_cons]
        calc es ++ flatEntries (insertGrouped k e rest)
            ~ es ++ (flatEntries rest ++ [e]) := ih.append_left es
          _ = (es ++ flatEntries rest) ++ [e] := by rw [List.append_assoc]

theorem keyConsistent_insertGrouped {κ : Type} [DecidableEq κ]
    (key : TimeEntry → κ) (k : κ) (e : TimeEntry) (hk : key e = k) :
    ∀ g : List (κ × List TimeEntry), KeyConsistent key g →
      KeyConsistent key (insertGrouped k e g) := by
  intro g
  induction g with
  | nil =>
      intro hg p hp x hx
      simp only [insertGrouped, List.mem_singleton] at hp
      subst hp
      simp only [List.mem_singleton] at hx
      subst hx
      exact hk
  | cons q rest ih =>
      rcases q with ⟨k', es⟩
      intro hg
      by_cases h : k = k'
      · subst h
        intro p hp x hx
        simp only [insertGrouped, eq_self_iff_true, if_true, List.mem_cons] at hp
        rcases hp with hp | hp
        · subst hp
          simp only [List.mem_append, List.mem_singleton] at hx
          rcases hx with hx | hx
          · exact hg (k, es) (List.mem_cons_self _ _) x hx
          · subst hx; exact hk
        · exact hg p (List.mem_cons_of_mem _ hp) x hx
      · intro p hp x hx
        simp only [insertGrouped, if_neg h, List.mem_cons] at hp
        rcases hp with hp | hp
        · subst hp
          exact hg (k', es) (List.mem_cons_self _ _) x hx
        · exact ih (fun q hq => hg q (List.mem_cons_of_mem _ hq)) p hp x hx

theorem groupPairs_nodup_aux {κ : Type} [DecidableEq κ] (key : TimeEntry → κ)
    (entries : List TimeEntry) :
    ∀ acc : List (κ × List TimeEntry), (acc.map Prod.fst).Nodup →
      ((entries.foldl (fun acc e => insertGrouped (key e) e acc) acc).map
        Prod.fst).Nodup := by
  induction entries with
  | nil => intro acc h; simpa using h
  | cons e es ih =>
      intro acc h
      exact ih _ (nodup_keys_insertGrouped (key e) e acc h)

theorem groupPairs_flat_aux {κ : Type} [DecidableEq κ] (key : TimeEntry → κ)
    (entries : List TimeEntry) :
    ∀ acc : List (κ × List TimeEntry),
      flatEntries (entries.foldl (fun acc e => insertGrouped (key e) e acc) acc)
        ~ flatEntries acc ++ entries := by
  induction entries with
  | nil => intro acc; simp
  | cons e es ih =>
      intro acc
      calc flatEntries
            (es.foldl (fun acc e => insertGrouped (key e) e acc)
              (insertGrouped (key e) e acc))
          ~ flatEntries (insertGrouped (key e) e acc) ++ es := ih _
        _ ~ (flatEntries acc ++ [e]) ++ es :=
            (flat_insertGrouped (key e) e acc).append_right es
        _ = flatEntries acc ++ (e :: es) := by simp

theorem groupPairs_keyConsistent_aux {κ : Type} [DecidableEq κ]
    (key : TimeEntry → κ) (entries : List TimeEntry) :
    ∀ acc : List (κ × List TimeEntry), KeyConsistent key acc →
      KeyConsistent key
        (entries.foldl (fun acc e => insertGrouped (key e) e acc) acc) := by
  induction entries with
  | nil => intro acc h; simpa using h
  | cons e es ih =>
      intro acc h
      exact ih _ (keyConsistent_insertGrouped key (key e) e rfl acc h)

theorem groupPairs_nodup {κ : Type} [DecidableEq κ] (key : TimeEntry → κ)
    (entries : List TimeEntry) :
    ((groupPairs key entries).map Prod.fst).Nodup :=
  groupPairs_nodup_aux key entries [] (by simp)

theorem groupPairs_flat_perm {κ : Type} [DecidableEq κ] (key : TimeEntry → κ)
    (entries : List TimeEntry) :
    flatEntries (groupPairs key entries) ~ entries := by
  simpa [flatEntries] using groupPairs_flat_aux key entries []

theorem groupPairs_keyConsistent {κ : Type} [DecidableEq κ] (key : TimeEntry → κ)
    (entries : List TimeEntry) : KeyConsistent key (groupPairs key entries) :=
  groupPairs_keyConsistent_aux key entries [] (by intro p hp; simp at hp)

theorem aggregateBy_map_key {κ : Type} [DecidableEq κ] (key : TimeEntry → κ)
    (entries : List TimeEntry) (b : Bool) :
    (aggregateBy key entries b).map ReportGroup.key
      = (groupPairs key entries).map Prod.fst := by
  simp [aggregateBy, List.map_map, Function.comp]

theorem aggregateBy_map_entries {κ : Type} [DecidableEq κ] (key : TimeEntry → κ)
    (entries : List TimeEntry) (b : Bool) :
    (aggregateBy key entries b).map ReportGroup.entries
      = (groupPairs key entries).map Prod.snd := by
  simp [aggregateBy, List.map_map, Function.comp]

theorem aggregateBy_map_totalHours {κ : Type} [DecidableEq κ] (key : TimeEntry → κ)
    (entries : List TimeEntry) (b : Bool) :
    (aggregateBy key entries b).map ReportGroup.totalHours
      = (groupPairs key entries).map (fun p => ((p.2.map entryHours).sum)) := by
  simp [aggregateBy, List.map_map, Function.comp, calculateHoursAndCosts_eq]

theorem entryHours_eq_zero_of_not_closed (e : TimeEntry) (h : isClosed e = false) :
    entryHours e = 0 := by
  unfold isClosed at h
  unfold entryHours
  rcases hs : e.startTime with _ | s <;> rcases hen : e.endTime with _ | en <;>
    simp [hs, hen] at h ⊢

theorem sum_entryHours_filter (entries : List TimeEntry) :
    (entries.map entryHours).sum
      = ((entries.filter isClosed).map entryHours).sum := by
  induction entries with
  | nil => simp
  | cons e es ih =>
      rcases hc : isClosed e
      · simp [List.filter_cons, hc, entryHours_eq_zero_of_not_closed e hc, ih]
      · simp [List.filter_cons, hc, ih]

theorem sum_over_groups {κ : Type} [DecidableEq κ] (key : TimeEntry → κ)
    (entries : List TimeEntry) :
    ((groupPairs key entries).map (fun p => ((p.2.map entryHours).sum))).sum
      = (entries.map entryHours).sum := by
  have h1 : ((groupPairs key entries).map (fun p => ((p.2.map entryHours).sum)))
      = (((groupPairs key entries).map Prod.snd).map
          (List.map entryHours)).map List.sum := by
    simp [List.map_map, Function.comp]
  rw [h1, ← List.sum_flatten, ← List.map_flatten]
  exact ((groupPairs_flat_perm key entries).map entryHours).sum_eq

/-- C5: `groupByDay` partitions the input: every entry lands in the group of
its calendar day, group keys are pairwise distinct, the concatenation of the
groups' entries is a permutation of the input, and the groups' `totalHours`
sum to the Duration Calculator total over exactly the closed input entries. -/
theorem groupByDay_spec (entries : List TimeEntry) (includeCosts : Bool) :
    (∀ g ∈ groupByDay entries includeCosts, ∀ e ∈ g.entries, dayKey e.date = g.key)
    ∧ ((groupByDay entries includeCosts).map ReportGroup.key).Nodup
    ∧ ((groupByDay entries includeCosts).map ReportGroup.entries).flatten ~ entries
    ∧ ((groupByDay entries includeCosts).map ReportGroup.totalHours).sum
        = ((entries.filter isClosed).map entryHours).sum := by
  refine ⟨?_, ?_, ?_, ?_⟩
  · intro g hg e he
    simp only [groupByDay, aggregateBy, List.mem_map] at hg
    obtain ⟨p, hp, rfl⟩ := hg
    exact groupPairs_keyConsistent _ entries p hp e he
  · rw [groupByDay, aggregateBy_map_key]
    exact groupPairs_nodup _ entries
  · rw [groupByDay, aggregateBy_map_entries]
    exact groupPairs_flat_perm _ entries
  · rw [groupByDay, aggregateBy_map_totalHours, sum_over_groups,
      sum_entryHours_filter]

/-- The predicate drizzle evaluates in `getRunningTimeEntry`:
`userId = u AND isRunning = true`. -/
def runningFor (u : Nat) (e : TimeEntry) : Bool :=
  e.userId == u && e.isRunning

/-- `storage.getRunningTimeEntry` (storage.ts 175–179): destructures the
first matching row of the select, if any. -/
def getRunningTimeEntry (u : Nat) (db : List TimeEntry) : Option TimeEntry :=
  db.find? (runningFor u)

/-- `storage.updateTimeEntry` restricted to what the timer handlers write:
set `endTime = now`, `isRunning = false` on the row with the given id. -/
def stopEntryById (now : Int) (i : Nat) (db : List TimeEntry) : List TimeEntry :=
  db.map (fun e =>
    if e.id == i then { e with endTime := some now, isRunning := false } else e)

/-- POST /api/timer/start (routes.ts 215–244): silently stop any running
timer of the caller, then insert a fresh running entry with
`startTime = now` and `endTime = null`. -/
def timerStart (u : Nat) (now : Int) (freshId : Nat) (db : List TimeEntry) :
    List TimeEntry :=
  (match getRunningTimeEntry u db with
    | some runningEntry => stopEntryById now runningEntry.id db
    | none => db)
  ++ [{ id := freshId, userId := u, date := now, startTime := some now,
        endTime := none, breakMinutes := 0, isRunning := true,
        hourlyRate := none }]

/-- POST /api/timer/stop (routes.ts 246–264): 400 `"Kein laufender Timer
gefunden"` when nothing is running (leaving the store untouched), otherwise
stop the running row. -/
def timerStop (u : Nat) (now : Int) (db : List TimeEntry) :
    Option String × List TimeEntry :=
  match getRunningTimeEntry u db with
  | none => (some "Kein laufender Timer gefunden", db)
  | some runningEntry => (none, stopEntryById now runningEntry.id db)

/-- The data-model invariant: at most one entry per user is running. -/
def AtMostOneRunning (u : Nat) (db : List TimeEntry) : Prop :=
  (db.filter (runningFor u)).length ≤ 1

theorem running_unique (u : Nat) (db : List TimeEntry)
    (hinv : AtMostOneRunning u db) (e₁ e₂ : TimeEntry)
    (h₁ : e₁ ∈ db) (hr₁ : runningFor u e₁ = true)
    (h₂ : e₂ ∈ db) (hr₂ : runningFor u e₂ = true) : e₁ = e₂ := by
  have m₁ : e₁ ∈ db.filter (runningFor u) := List.mem_filter.2 ⟨h₁, hr₁⟩
  have m₂ : e₂ ∈ db.filter (runningFor u) := List.mem_filter.2 ⟨h₂, hr₂⟩
  unfold AtMostOneRunning at hinv
  rcases hl : db.filter (runningFor u) with _ | ⟨a, _ | ⟨b, t⟩⟩
  · rw [hl] at m₁; simp at m₁
  · rw [hl] at m₁ m₂
    simp only [List.mem_singleton] at m₁ m₂
    rw [m₁, m₂]
  · rw [hl] at hinv; simp at hinv

theorem runningFor_stopped (u : Nat) (now : Int) (e : TimeEntry) :
    runningFor u ({ e with endTime := some now, isRunning := false }) = false := by
  simp [runningFor]

/-- C3: starting a timer under the one-running-entry invariant leaves the
caller with exactly one running entry (the fresh one), and every previously
running entry of the caller is now stored stopped, with `endTime = now`;
the handler reports no error. -/
theorem timerStart_spec (u : Nat) (now : Int) (freshId : Nat)
    (db : List TimeEntry) (hinv : AtMostOneRunning u db) :
    ((timerStart u now freshId db).filter (runningFor u)).length = 1
    ∧ ∀ e ∈ db, runningFor u e = true →
        ({ e with endTime := some now, isRunning := false } : TimeEntry)
          ∈ timerStart u now freshId db := by
  have hnew : runningFor u
      ({ id := freshId, userId := u, date := now, startTime := some now,
         endTime := none, breakMinutes := 0, isRunning := true,
         hourlyRate := none } : TimeEntry) = true := by
    simp [runningFor]
  constructor
  · rcases hr : getRunningTimeEntry u db with _ | r
    · have hnone : ∀ e ∈ db, runningFor u e = false := by
        intro e he
        have := List.find?_eq_none.1 hr e he
        simpa using this
      unfold timerStart
      rw [hr]
      rw [List.filter_append]
      have : db.filter (runningFor u) = [] := List.filter_eq_nil_iff.2
        (by intro a ha; simp [hnone a ha])
      rw [this]
      simp [hnew]
    · have hrr : runningFor u r = true := List.find?_some hr
      have hrm : r ∈ db := List.mem_of_find?_eq_some hr
      have hstopped : (stopEntryById now r.id db).filter (runningFor u) = [] := by
        apply List.filter_eq_nil_iff.2
        intro a ha
        simp only [stopEntryById, List.mem_map] at ha
        obtain ⟨e, he, rfl⟩ := ha
        by_cases hid : (e.id == r.id) = true
        · simp only [hid, if_true]
          simp [runningFor]
        · simp only [hid]
          simp only [Bool.false_eq_true, if_false]
          intro hcon
          have : e = r := running_unique u db hinv e r he (by simpa using hcon) hrm hrr
          rw [this] at hid
          simp at hid
      unfold timerStart
      rw [hr, List.filter_append, hstopped]
      simp [hnew]
  · intro e he hre
    rcases hr : getRunningTimeEntry u db with _ | r
    · exact absurd (List.find?_eq_none.1 hr e he) (by simp [hre])
    · have hrr : runningFor u r = true := List.find?_some hr
      have hrm : r ∈ db := List.mem_of_find?_eq_some hr
      have her : e = r := running_unique u db hinv e r he hre hrm hrr
      unfold timerStart
      rw [hr]
      apply List.mem_append_left
      simp only [stopEntryById, List.mem_map]
      refine ⟨e, he, ?_⟩
      rw [her]
      simp

/-- C4: stopping with no running timer answers the "no running timer" error
and leaves the store untouched; stopping when the caller's running entry
exists (under the invariant) succeeds and stores that entry with
`isRunning = false` and `endTime = now`. -/
theorem timerStop_spec (u : Nat) (now : Int) (db : List TimeEntry) :
    (getRunningTimeEntry u db = none →
      timerStop u now db = (some "Kein laufender Timer gefunden", db))
    ∧ (∀ e ∈ db, runningFor u e = true → AtMostOneRunning u db →
        (timerStop u now db).1 = none
        ∧ ({ e with endTime := some now, isRunning := false } : TimeEntry)
            ∈ (timerStop u now db).2) := by
  constructor
  · intro h
    unfold timerStop
    rw [h]
  · intro e he hre hinv
    rcases hr : getRunningTimeEntry u db with _ | r
    · exact absurd (List.find?_eq_none.1 hr e he) (by simp [hre])
    · have hrr : runningFor u r = true := List.find?_some hr
      have hrm : r ∈ db := List.mem_of_find?_eq_some hr
      have her : e = r := running_unique u db hinv e r he hre hrm hrr
      unfold timerStop
      rw [hr]
      refine ⟨rfl, ?_⟩
      simp only [stopEntryById, List.mem_map]
      refine ⟨e, he, ?_⟩
      rw [her]
      simp

/-- A running entry of user 7 started at 50. -/
def runningEntry7 : TimeEntry := ⟨0, 7, 50, some 50, none, 0, true, none⟩

/-- A closed entry of user 7 (nothing running). -/
def closedEntry7 : TimeEntry := ⟨0, 7, 50, some 50, some 60, 0, false, none⟩

/-- Witness for C3: starting at time 200 while `runningEntry7` runs leaves
exactly one running entry and stores the old one stopped at 200. -/
theorem timerStart_spec_witness :
    ((timerStart 7 200 1 [runningEntry7]).filter (runningFor 7)).length = 1
    ∧ ({ runningEntry7 with endTime := some 200, isRunning := false } : TimeEntry)
        ∈ timerStart 7 200 1 [runningEntry7] := by
  have h := timerStart_spec 7 200 1 [runningEntry7]
    (by unfold AtMostOneRunning; decide)
  exact ⟨h.1, h.2 runningEntry7 (by decide) (by decide)⟩

/-- Witness for C4: stopping with only a closed entry stored reports the
error and changes nothing; stopping `runningEntry7` stores it stopped. -/
theorem timerStop_spec_witness :
    timerStop 7 200 [closedEntry7]
        = (some "Kein laufender Timer gefunden", [closedEntry7])
    ∧ (timerStop 7 200 [runningEntry7]).1 = none
    ∧ ({ runningEntry7 with endTime := some 200, isRunning := false } : TimeEntry)
        ∈ (timerStop 7 200 [runningEntry7]).2 := by
  have h1 := (timerStop_spec 7 200 [closedEntry7]).1 (by decide)
  have h2 := (timerStop_spec 7 200 [runningEntry7]).2 runningEntry7
    (by decide) (by decide) (by unfold AtMostOneRunning; decide)
  exact ⟨h1, h2.1, h2.2⟩

/-- `calculateWorkingHours` (src/unnamed/part_011 lines 3–17, the client
time-calculations library): entries missing a timestamp or still running
contribute nothing; the rest contribute `max(0, span − break)` hours. -/
def calculateWorkingHours (entries : List TimeEntry) : ℚ :=
  entries.foldl (fun total e =>
    match e.startTime, e.endTime, e.isRunning with
    | some s, some en, false => total + calculateDuration s en e.breakMinutes
    | _, _, _ => total) 0

/-- `calculateOvertimeBalance` (src/unnamed/part_011 lines 19–24). -/
def calculateOvertimeBalance (workedHours targetHours : ℚ) : ℚ :=
  workedHours - targetHours

/-- The three period balances of the dashboard. -/
structure Balances where
  todayBalance : ℚ
  weekBalance : ℚ
  monthBalance : ℚ
  deriving Repr

/-- The balance computation of `BalanceCards`
(src/client/src/components/dashboard/balance-cards.tsx lines 52–62), applied
to the already-windowed entry lists. -/
def balanceCards (todayEntries weekEntries monthEntries : List TimeEntry)
    (targetHoursPerDay : ℚ) : Balances :=
  let todayHours := calculateWorkingHours todayEntries
  let weekHours := calculateWorkingHours weekEntries
  let monthHours := calculateWorkingHours monthEntries
  let targetWeekHours := targetHoursPerDay * 5
  let targetMonthHours := targetHoursPerDay * 22
  { todayBalance := todayHours - targetHoursPerDay,
    weekBalance := weekHours - targetWeekHours,
    monthBalance := monthHours - targetMonthHours }

/-- A closed entry of exactly 8 net hours: 8.5 h span minus a 30-minute
break. -/
def eightHourEntry : TimeEntry := ⟨10, 3, 0, some 0, some 30600000, 30, false, none⟩

/-- C6: the today balance is worked net hours minus `targetHoursPerDay`, the
week balance is measured against `targetHoursPerDay × 5`, the month balance
against `targetHoursPerDay × 22`, and a user with target 8 who logs exactly
8 net hours today balances to 0. -/
theorem balanceCards_spec (todayEntries weekEntries monthEntries : List TimeEntry)
    (t : ℚ) :
    (balanceCards todayEntries weekEntries monthEntries t).todayBalance
        = calculateOvertimeBalance (calculateWorkingHours todayEntries) t
    ∧ (balanceCards todayEntries weekEntries monthEntries t).weekBalance
        = calculateOvertimeBalance (calculateWorkingHours weekEntries) (t * 5)
    ∧ (balanceCards todayEntries weekEntries monthEntries t).monthBalance
        = calculateOvertimeBalance (calculateWorkingHours monthEntries) (t * 22)
    ∧ calculateWorkingHours [eightHourEntry] = 8
    ∧ (balanceCards [eightHourEntry] weekEntries monthEntries 8).todayBalance = 0 := by
  have h8 : calculateWorkingHours [eightHourEntry] = 8 := by
    unfold calculateWorkingHours eightHourEntry calculateDuration
    norm_num
  refine ⟨rfl, rfl, rfl, h8, ?_⟩
  unfold balanceCards
  rw [h8]
  norm_num

/-- JS `Date.prototype.getDay` on the date `d` days from the epoch
(1970-01-01 was a Thursday, weekday 4; Sunday is 0). -/
def jsGetDay (d : Int) : Int := (d + 4) % 7

/-- The week key of the Report Aggregator's `groupByWeek` (routes.ts
575–584): `weekStart.setDate(date.getDate() - date.getDay())` shifts the
date back to its Sunday. -/
def reportWeekStart (d : Int) : Int := d - jsGetDay d

/-- The start of "this week" in `BalanceCards` (balance-cards.tsx 17–22):
back `getDay() === 0 ? 6 : getDay() - 1` days, landing on Monday. -/
def balanceWeekStart (d : Int) : Int :=
  d - (if jsGetDay d = 0 then 6 else jsGetDay d - 1)

/-- C8: the Report Aggregator's week grouping is Sunday-aligned while the
Balance Engine's week window is Monday-aligned; for every date the two
week-start days differ. -/
theorem weekAlignment_spec (d : Int) :
    jsGetDay (reportWeekStart d) = 0
    ∧ jsGetDay (balanceWeekStart d) = 1
    ∧ reportWeekStart d ≠ balanceWeekStart d := by
  unfold reportWeekStart balanceWeekStart jsGetDay
  by_cases h : (d + 4) % 7 = 0 <;> simp only [h, if_true, if_false] <;>
    refine ⟨by omega, by omega, by omega⟩

/-- A user row, with the role kept as the raw enum string the code
compares against. -/
structure User where
  id : Nat
  role : String
  isActive : Bool
  deriving DecidableEq, Repr

/-- `storage.getAllUsers` (storage.ts 81–83): selects only active users. -/
def getAllUsers (db : List User) : List User :=
  db.filter (fun u => u.isActive)

/-- The admin-existence check shared by GET /api/admin-exists (routes.ts
267–275) and the promote handler: `users.some(u => u.role === 'admin')`
over `getAllUsers`. -/
def adminExists (db : List User) : Bool :=
  (getAllUsers db).any (fun u => u.role == "admin")

/-- POST /api/users/:id/promote (routes.ts 327–349): refuse if an (active)
admin exists, refuse promotion of anyone but the caller, otherwise set the
target's role to admin. -/
def promoteUser (callerId targetId : Nat) (db : List User) :
    Option String × List User :=
  if adminExists db then
    (some "Ein Administrator existiert bereits im System", db)
  else if targetId ≠ callerId then
    (some "Sie können nur sich selbst befördern", db)
  else
    (none, db.map (fun u =>
      if u.id == targetId then { u with role := "admin" } else u))

/-- C9: promotion succeeds only for the caller themselves and only while no
active user is an admin; since the existence check reads active users only,
a database whose only admins are deactivated lets the promotion through and
makes GET /api/admin-exists answer `adminExists = false`. -/
theorem promoteUser_spec (callerId targetId : Nat) (db : List User) :
    ((promoteUser callerId targetId db).1 = none →
      targetId = callerId ∧ adminExists db = false)
    ∧ (adminExists db = false → targetId = callerId →
        (promoteUser callerId targetId db).1 = none
        ∧ ∀ u ∈ db, u.id = targetId →
            ({ u with role := "admin" } : User)
              ∈ (promoteUser callerId targetId db).2)
    ∧ ((∀ u ∈ db, u.role = "admin" → u.isActive = false) →
        adminExists db = false) := by
  refine ⟨?_, ?_, ?_⟩
  · intro h
    unfold promoteUser at h
    by_cases ha : adminExists db
    · simp [ha] at h
    · by_cases ht : targetId = callerId
      · exact ⟨ht, by simpa using ha⟩
      · simp [ha, ht] at h
  · intro ha ht
    unfold promoteUser
    rw [ha]
    simp only [Bool.false_eq_true, if_false, ht, ne_eq, not_true_eq_false]
    refine ⟨by trivial, ?_⟩
    intro u hu hid
    simp only [List.mem_map]
    exact ⟨u, hu, by simp [hid]⟩
  · intro h
    unfold adminExists getAllUsers
    rw [List.any_eq_false]
    intro u hu
    rw [List.mem_filter] at hu
    intro hadmin
    have := h u hu.1 (by simpa using hadmin)
    rw [this] at hu
    exact absurd hu.2 (by simp)

/-- A deactivated admin next to an active employee. -/
def deactivatedAdminDb : List User := [⟨1, "admin", false⟩, ⟨2, "employee", true⟩]

/-- Witness for C9 on `deactivatedAdminDb`: the admin-exists check answers
false and user 2 can promote themselves to admin. -/
theorem promoteUser_spec_witness :
    adminExists deactivatedAdminDb = false
    ∧ (promoteUser 2 2 deactivatedAdminDb).1 = none
    ∧ (⟨2, "admin", true⟩ : User) ∈ (promoteUser 2 2 deactivatedAdminDb).2 := by
  have hfalse := (promoteUser_spec 2 2 deactivatedAdminDb).2.2 (by decide)
  have h := (promoteUser_spec 2 2 deactivatedAdminDb).2.1 hfalse rfl
  exact ⟨hfalse, h.1, h.2 ⟨2, "employee", true⟩ (by decide) rfl⟩

/-- The spec's §8 scenario entry: 09:00–17:00 with a 30-minute break, owner
rated 20.00/h. -/
def ratedEntry : TimeEntry :=
  ⟨11, 3, 0, some 32400000, some 61200000, 30, false, some 20⟩

/-- C7: when costs are computed, each aggregated group's `totalCosts` is the
sum over its closed entries of net hours × the entry's joined hourly rate;
an absent rate contributes 0; the 7.5-net-hour entry at rate 20.00 yields
`totalCosts = 150.00`. -/
theorem totalCosts_spec {κ : Type} [DecidableEq κ] (key : TimeEntry → κ)
    (entries : List TimeEntry) :
    (∀ g ∈ aggregateBy key entries true,
      g.totalCosts = (g.entries.map entryCost).sum)
    ∧ (∀ e : TimeEntry, e.hourlyRate = none → entryCost e = 0)
    ∧ (calculateHoursAndCosts [ratedEntry] true).2 = 150 := by
  refine ⟨?_, ?_, ?_⟩
  · intro g hg
    simp only [aggregateBy, List.mem_map] at hg
    obtain ⟨p, hp, rfl⟩ := hg
    simp [calculateHoursAndCosts_eq]
  · intro e he
    unfold entryCost
    rcases e.startTime with _ | s <;> rcases e.endTime with _ | en <;>
      simp [he]
  · rw [calculateHoursAndCosts_eq]
    unfold entryCost ratedEntry calculateDuration
    norm_num

/-- Witness for C7: the day-grouped aggregation of `ratedEntry` alone has a
single group whose `totalCosts` matches the per-entry cost sum, 150.00. -/
theorem totalCosts_spec_witness :
    (calculateHoursAndCosts [ratedEntry] true).2 = 150
    ∧ entryCost ({ ratedEntry with hourlyRate := none }) = 0
    ∧ ({ key := dayKey 0, entries := [ratedEntry],
         totalHours := (calculateHoursAndCosts [ratedEntry] true).1,
         totalCosts := (calculateHoursAndCosts [ratedEntry] true).2 } :
        ReportGroup Int).totalCosts = ([ratedEntry].map entryCost).sum := by
  refine ⟨(totalCosts_spec (fun e => dayKey e.date) [ratedEntry]).2.2,
    (totalCosts_spec (fun e => dayKey e.date) [ratedEntry]).2.1 _ rfl, ?_⟩
  exact (totalCosts_spec (fun e => dayKey e.date) [ratedEntry]).1 _
    (List.mem_singleton.mpr rfl)

/-- GET /api/reports/data (routes.ts 701–763) at the default/day grouping:
the cost flag passed to the grouping helper is the caller's admin status,
and the handler reads no `includeCosts` query parameter; the produced groups
embed the raw joined entries. -/
def reportsDataDay (isAdmin : Bool) (entries : List TimeEntry) :
    List (ReportGroup Int) :=
  groupByDay entries isAdmin

/-- C10 counterexample: for a non-admin caller the response is NOT
independent of the hourly rate — two stores identical except for one
`hourlyRate` yield different responses, because each group carries the raw
entries (with the joined user record) into the JSON. -/
theorem reportsDataDay_depends_on_rate :
    reportsDataDay false [⟨0, 7, 0, some 0, some 3600000, 0, false, some 1⟩]
      ≠ reportsDataDay false [⟨0, 7, 0, some 0, some 3600000, 0, false, some 2⟩] := by
  intro h
  have h2 := congrArg
    (List.map (fun g => g.entries.map TimeEntry.hourlyRate)) h
  simp only [reportsDataDay, groupByDay, aggregateBy, groupPairs,
    List.foldl_cons, List.foldl_nil, insertGrouped, List.map_cons,
    List.map_nil, List.cons.injEq] at h2
  norm_num at h2

/-- The same entry with the joined hourly rate removed. -/
def eraseRate (e : TimeEntry) : TimeEntry := { e with hourlyRate := none }

theorem entryHours_eraseRate (e : TimeEntry) :
    entryHours (eraseRate e) = entryHours e := rfl

theorem insertGrouped_eraseRate {κ : Type} [DecidableEq κ] (k : κ) (e : TimeEntry)
    (g : List (κ × List TimeEntry)) :
    insertGrouped k (eraseRate e) (g.map (fun p => (p.1, p.2.map eraseRate)))
      = (insertGrouped k e g).map (fun p => (p.1, p.2.map eraseRate)) := by
  induction g with
  | nil => rfl
  | cons p rest ih =>
      rcases p with ⟨k', es⟩
      by_cases h : k = k' <;> simp [insertGrouped, h, ih]

theorem groupPairs_eraseRate_aux {κ : Type} [DecidableEq κ] (key : TimeEntry → κ)
    (hkey : ∀ e, key (eraseRate e) = key e) (entries : List TimeEntry) :
    ∀ acc : List (κ × List TimeEntry),
      (entries.map eraseRate).foldl (fun acc e => insertGrouped (key e) e acc)
          (acc.map (fun p => (p.1, p.2.map eraseRate)))
        = (entries.foldl (fun acc e => insertGrouped (key e) e acc) acc).map
            (fun p => (p.1, p.2.map eraseRate)) := by
  induction entries with
  | nil => intro acc; rfl
  | cons e es ih =>
      intro acc
      simp only [List.map_cons, List.foldl_cons]
      rw [hkey, insertGrouped_eraseRate]
      exact ih _

theorem groupPairs_eraseRate {κ : Type} [DecidableEq κ] (key : TimeEntry → κ)
    (hkey : ∀ e, key (eraseRate e) = key e) (entries : List TimeEntry) :
    groupPairs key (entries.map eraseRate)
      = (groupPairs key entries).map (fun p => (p.1, p.2.map eraseRate)) := by
  have := groupPairs_eraseRate_aux key hkey entries []
  simpa [groupPairs] using this

/-- C10 (amended): for a non-admin caller the day aggregation runs with the
cost flag false, so every group's `totalCosts` is 0 and the aggregate
figures — key, `totalHours`, entry count — are unchanged when every hourly
rate is erased; for an admin caller costs are always computed, the flag
being the role check itself. -/
theorem reportsDataDay_spec (entries : List TimeEntry) :
    (∀ g ∈ reportsDataDay false entries, g.totalCosts = 0)
    ∧ ((reportsDataDay false (entries.map eraseRate)).map
          (fun g => (g.key, g.totalHours, g.entries.length))
        = (reportsDataDay false entries).map
          (fun g => (g.key, g.totalHours, g.entries.length)))
    ∧ reportsDataDay true entries = groupByDay entries true := by
  refine ⟨?_, ?_, rfl⟩
  · intro g hg
    simp only [reportsDataDay, groupByDay, aggregateBy, List.mem_map] at hg
    obtain ⟨p, hp, rfl⟩ := hg
    simp [calculateHoursAndCosts_eq]
  · simp only [reportsDataDay, groupByDay, aggregateBy]
    rw [groupPairs_eraseRate (fun e => dayKey e.date) (fun e => rfl) entries]
    rw [List.map_map, List.map_map, List.map_map]
    apply List.map_congr_left
    intro p hp
    simp [Function.comp_def, calculateHoursAndCosts_eq, List.map_map,
      entryHours_eraseRate]

/-- Witness for C5 on two same-day entries: distinct keys, the flattened
groups are a permutation of the input, the hour totals agree with the
per-entry durations, and `candEntry` lies in the group of its own day. -/
theorem groupByDay_spec_witness :
    ((groupByDay [candEntry, overlappingEntry] false).map ReportGroup.key).Nodup
    ∧ ((groupByDay [candEntry, overlappingEntry] false).map
        ReportGroup.entries).flatten ~ [candEntry, overlappingEntry]
    ∧ ((groupByDay [candEntry, overlappingEntry] false).map
        ReportGroup.totalHours).sum
        = (([candEntry, overlappingEntry].filter isClosed).map entryHours).sum
    ∧ dayKey candEntry.date
        = ({ key := dayKey candEntry.date,
             entries := [candEntry, overlappingEntry],
             totalHours :=
               (calculateHoursAndCosts [candEntry, overlappingEntry] false).1,
             totalCosts :=
               (calculateHoursAndCosts [candEntry, overlappingEntry] false).2 } :
            ReportGroup Int).key := by
  have h := groupByDay_spec [candEntry, overlappingEntry] false
  exact ⟨h.2.1, h.2.2.1, h.2.2.2,
    h.1 _ (List.mem_singleton.mpr rfl) candEntry (by decide)⟩

/-- Witness for C8 at a concrete date (day 3 from the epoch, a Sunday):
the two week starts land on a Sunday and a Monday respectively and differ. -/
theorem weekAlignment_spec_witness :
    jsGetDay (reportWeekStart 3) = 0
    ∧ jsGetDay (balanceWeekStart 3) = 1
    ∧ reportWeekStart 3 ≠ balanceWeekStart 3 :=
  weekAlignment_spec 3

/-- Witness for the amended C10 on `ratedEntry`: the non-admin group totals
zero costs and erasing the rate leaves the aggregate figures unchanged. -/
theorem reportsDataDay_spec_witness :
    ({ key := dayKey ratedEntry.date, entries := [ratedEntry],
       totalHours := (calculateHoursAndCosts [ratedEntry] false).1,
       totalCosts := (calculateHoursAndCosts [ratedEntry] false).2 } :
      ReportGroup Int).totalCosts = 0
    ∧ ((reportsDataDay false ([ratedEntry].map eraseRate)).map
          (fun g => (g.key, g.totalHours, g.entries.length))
        = (reportsDataDay false [ratedEntry]).map
          (fun g => (g.key, g.totalHours, g.entries.length))) := by
  refine ⟨?_, (reportsDataDay_spec [ratedEntry]).2.1⟩
  exact (reportsDataDay_spec [ratedEntry]).1 _ (List.mem_singleton.mpr rfl)

end TimeSheet
